import Mathlib

/-!
Verification of the resampling-based evaluation engine of the
scikit-learn-mooc scripts: split strategies, the cross-validation
executor, the hyperparameter-search estimator, the metrics and
threshold-curve engine, and the bootstrap sampler.

The notebook scripts under `python_scripts/` drive these components
through the scikit-learn library, whose code is not part of the
repository; every definition below that stands for such a component is
modelled from the specification text (doc comments say so), while
`bootstrap_sample` is embedded directly from
`python_scripts/ensemble_bagging.py`.
-/

/-! ## Fold sizes and chunking (KFold) -/

/-- Modelled from the spec: the missing `sklearn.model_selection.KFold`
fold sizes for `n` samples and `k` splits — every fold gets `n / k`
indices and the first `n % k` folds one extra (spec section 4.1). -/
def foldSizes (n k : ℕ) : List ℕ :=
  (List.range k).map (fun i => n / k + if i < n % k then 1 else 0)

/-- Split a list into consecutive chunks of the given sizes. -/
def chunkSizes {α : Type} : List ℕ → List α → List (List α)
  | [], _ => []
  | s :: ss, l => l.take s :: chunkSizes ss (l.drop s)

/-- Modelled from the spec: the test folds of `KFold(n_splits=k)` (no
shuffling) over `n` samples — consecutive slices of `0 .. n-1` with the
prescribed near-equal sizes (spec sections 4.1 and 8). -/
def kfoldTestSets (n k : ℕ) : List (List ℕ) :=
  chunkSizes (foldSizes n k) (List.range n)

theorem chunkSizes_length {α : Type} (ss : List ℕ) (l : List α) :
    (chunkSizes ss l).length = ss.length := by
  induction ss generalizing l with
  | nil => rfl
  | cons s ss ih => simp [chunkSizes, ih]

theorem chunkSizes_flatten {α : Type} (ss : List ℕ) (l : List α) :
    (chunkSizes ss l).flatten = l.take ss.sum := by
  induction ss generalizing l with
  | nil => simp [chunkSizes]
  | cons s ss ih =>
      simp only [chunkSizes, List.flatten_cons, ih, List.sum_cons]
      rw [List.take_add, List.take_drop]

theorem chunkSizes_map_length {α : Type} (ss : List ℕ) (l : List α)
    (h : ss.sum ≤ l.length) :
    (chunkSizes ss l).map List.length = ss := by
  induction ss generalizing l with
  | nil => rfl
  | cons s ss ih =>
      simp only [List.sum_cons] at h
      have hs : s ≤ l.length := le_trans (Nat.le_add_right s ss.sum) h
      have hrest : ss.sum ≤ (l.drop s).length := by
        rw [List.length_drop]
        omega
      simp [chunkSizes, List.length_take, Nat.min_eq_left hs, ih _ hrest]

theorem foldSizes_length (n k : ℕ) : (foldSizes n k).length = k := by
  simp [foldSizes]

theorem foldSizes_sum (n k : ℕ) (hk : 0 < k) : (foldSizes n k).sum = n := by
  show (∑ i ∈ Finset.range k, (n / k + if i < n % k then 1 else 0)) = n
  rw [Finset.sum_add_distrib, Finset.sum_const, Finset.card_range, smul_eq_mul]
  have hfilter : (Finset.range k).filter (fun i => i < n % k) = Finset.range (n % k) := by
    ext i
    simp only [Finset.mem_filter, Finset.mem_range]
    have := Nat.mod_lt n hk
    omega
  rw [← Finset.card_filter (fun i => i < n % k) (Finset.range k), hfilter,
    Finset.card_range]
  exact Nat.div_add_mod n k

theorem kfoldTestSets_flatten (n k : ℕ) (hk : 0 < k) :
    (kfoldTestSets n k).flatten = List.range n := by
  rw [kfoldTestSets, chunkSizes_flatten, foldSizes_sum n k hk,
    List.take_of_length_le (by simp)]

theorem kfoldTestSets_pairwise_disjoint (n k : ℕ) (hk : 0 < k) :
    (kfoldTestSets n k).Pairwise List.Disjoint := by
  have hflat : (kfoldTestSets n k).flatten.Nodup := by
    rw [kfoldTestSets_flatten n k hk]
    exact List.nodup_range n
  exact (List.nodup_flatten.mp hflat).2

theorem kfoldTestSets_sizes (n k : ℕ) (hk : k ≤ n) :
    (kfoldTestSets n k).map List.length = foldSizes n k := by
  apply chunkSizes_map_length
  rcases Nat.eq_zero_or_pos k with h0 | hpos
  · subst h0; simp [foldSizes]
  · rw [foldSizes_sum n k hpos, List.length_range]

/-- C2: for every `n` and every `k` with `2 ≤ k ≤ n`, `KFold(n_splits=k)`
produces exactly `k` test sets that are pairwise disjoint, whose union
(concatenation) is the full index set `0 .. n-1`, and whose sizes are
`n / k` plus one extra for exactly the first `n % k` folds. -/
theorem kfold_test_sets_partition (n k : ℕ) (h2 : 2 ≤ k) (hkn : k ≤ n) :
    (kfoldTestSets n k).length = k ∧
    (kfoldTestSets n k).Pairwise List.Disjoint ∧
    (kfoldTestSets n k).flatten = List.range n ∧
    (kfoldTestSets n k).map List.length =
      (List.range k).map (fun i => n / k + if i < n % k then 1 else 0) := by
  have hk : 0 < k := lt_of_lt_of_le (by norm_num) h2
  refine ⟨?_, kfoldTestSets_pairwise_disjoint n k hk,
    kfoldTestSets_flatten n k hk, kfoldTestSets_sizes n k hkn⟩
  rw [kfoldTestSets, chunkSizes_length, foldSizes_length]

/-- Witness for C2 at the spec scenario: 20 samples, 4 folds — every
fold has size 5, the folds are disjoint and cover all 20 indices. -/
theorem kfold_test_sets_partition_witness :
    ((kfoldTestSets 20 4).map List.length = [5, 5, 5, 5]) ∧
    ((kfoldTestSets 20 4).length = 4 ∧
      (kfoldTestSets 20 4).Pairwise List.Disjoint ∧
      (kfoldTestSets 20 4).flatten = List.range 20 ∧
      (kfoldTestSets 20 4).map List.length =
        (List.range 4).map (fun i => 20 / 4 + if i < 20 % 4 then 1 else 0)) :=
  ⟨by decide, kfold_test_sets_partition 20 4 (by decide) (by decide)⟩

/-! ## Seeded shuffling and split strategies -/

/-- Modelled from the spec: the missing external seeded random generator
(numpy / scikit-learn `random_state`), replaced by an explicit linear
congruential step as mandated by spec section 9 (no ambient generator). -/
def lcgNext (s : ℕ) : ℕ := (s * 1103515245 + 12345) % 2147483648

/-- Fuel-indexed Fisher-Yates-style draw: pick a pseudo-random position,
emit the element there, recurse on the list with that position removed. -/
def shuffleGo : ℕ → ℕ → List ℕ → List ℕ
  | 0, _, _ => []
  | fuel + 1, s, l =>
      l.getD (s % l.length) 0 ::
        shuffleGo fuel (lcgNext s) (l.take (s % l.length) ++ l.drop (s % l.length + 1))

/-- Modelled from the spec: the deterministic seeded permutation used by
shuffling split strategies (spec section 4.1). -/
def seededShuffle (seed : ℕ) (l : List ℕ) : List ℕ := shuffleGo l.length (lcgNext seed) l

theorem shuffleGo_length (fuel : ℕ) :
    ∀ (s : ℕ) (l : List ℕ), fuel ≤ l.length → (shuffleGo fuel s l).length = fuel := by
  induction fuel with
  | zero => intro s l _; rfl
  | succ fuel ih =>
      intro s l hf
      have hlpos : 0 < l.length := lt_of_lt_of_le (Nat.succ_pos fuel) hf
      have hi : s % l.length < l.length := Nat.mod_lt s hlpos
      have hrest : fuel ≤ (l.take (s % l.length) ++ l.drop (s % l.length + 1)).length := by
        rw [List.length_append, List.length_take, List.length_drop]
        omega
      simp only [shuffleGo, List.length_cons, ih (lcgNext s) _ hrest]

theorem shuffleGo_subset (fuel : ℕ) :
    ∀ (s : ℕ) (l : List ℕ), fuel ≤ l.length →
      ∀ x ∈ shuffleGo fuel s l, x ∈ l := by
  induction fuel with
  | zero => intro s l _ x hx; simp [shuffleGo] at hx
  | succ fuel ih =>
      intro s l hf x hx
      have hlpos : 0 < l.length := lt_of_lt_of_le (Nat.succ_pos fuel) hf
      have hi : s % l.length < l.length := Nat.mod_lt s hlpos
      have hrest : fuel ≤ (l.take (s % l.length) ++ l.drop (s % l.length + 1)).length := by
        rw [List.length_append, List.length_take, List.length_drop]
        omega
      simp only [shuffleGo, List.mem_cons] at hx
      rcases hx with hx | hx
      · rw [hx, List.getD_eq_getElem l 0 hi]
        exact List.getElem_mem hi
      · rcases List.mem_append.mp (ih (lcgNext s) _ hrest x hx) with h | h
        · exact List.mem_of_mem_take h
        · exact List.mem_of_mem_drop h

theorem removeAt_nodup (l : List ℕ) (i : ℕ) (hi : i < l.length) (hn : l.Nodup) :
    (l.take i ++ l.drop (i + 1)).Nodup ∧ l[i] ∉ l.take i ++ l.drop (i + 1) := by
  have hdecomp : l.take i ++ l[i] :: l.drop (i + 1) = l := by
    rw [← List.drop_eq_getElem_cons hi, List.take_append_drop]
  rw [← hdecomp] at hn
  rcases List.nodup_append.mp hn with ⟨h1, h2, h3⟩
  rcases List.nodup_cons.mp h2 with ⟨h4, h5⟩
  constructor
  · exact List.nodup_append.mpr
      ⟨h1, h5, fun _ ha ha2 => h3 ha (List.mem_cons_of_mem _ ha2)⟩
  · intro hmem
    rcases List.mem_append.mp hmem with h | h
    · exact h3 h (List.mem_cons_self _ _)
    · exact h4 h

theorem shuffleGo_nodup (fuel : ℕ) :
    ∀ (s : ℕ) (l : List ℕ), fuel ≤ l.length → l.Nodup →
      (shuffleGo fuel s l).Nodup := by
  induction fuel with
  | zero => intro s l _ _; simp [shuffleGo]
  | succ fuel ih =>
      intro s l hf hn
      have hlpos : 0 < l.length := lt_of_lt_of_le (Nat.succ_pos fuel) hf
      have hi : s % l.length < l.length := Nat.mod_lt s hlpos
      have hrest : fuel ≤ (l.take (s % l.length) ++ l.drop (s % l.length + 1)).length := by
        rw [List.length_append, List.length_take, List.length_drop]
        omega
      rcases removeAt_nodup l (s % l.length) hi hn with ⟨hnr, hnotin⟩
      simp only [shuffleGo, List.nodup_cons]
      refine ⟨fun hmem => ?_, ih (lcgNext s) _ hrest hnr⟩
      rw [List.getD_eq_getElem l 0 hi] at hmem
      exact hnotin (shuffleGo_subset fuel (lcgNext s) _ hrest _ hmem)

theorem seededShuffle_length (seed : ℕ) (l : List ℕ) :
    (seededShuffle seed l).length = l.length :=
  shuffleGo_length l.length (lcgNext seed) l le_rfl

theorem seededShuffle_subset (seed : ℕ) (l : List ℕ) :
    ∀ x ∈ seededShuffle seed l, x ∈ l :=
  shuffleGo_subset l.length (lcgNext seed) l le_rfl

theorem seededShuffle_nodup (seed : ℕ) (l : List ℕ) (h : l.Nodup) :
    (seededShuffle seed l).Nodup :=
  shuffleGo_nodup l.length (lcgNext seed) l le_rfl h

/-- Train/test pairs obtained from a chunk list: chunk `i` is the test
set, the remaining chunks concatenated in order are the train set. -/
def splitsFromChunks (cs : List (List ℕ)) : List (List ℕ × List ℕ) :=
  (List.range cs.length).map (fun i =>
    ((cs.take i).flatten ++ (cs.drop (i + 1)).flatten, cs.getD i []))

/-- Index ordering used by `KFold`: the identity unless shuffling is
requested, in which case the seeded permutation is applied. -/
def kfoldIndexList (useShuffle : Bool) (seed n : ℕ) : List ℕ :=
  if useShuffle then seededShuffle seed (List.range n) else List.range n

/-- The chunk decomposition of an index list into `k` near-equal folds. -/
def chunksOf (k : ℕ) (idx : List ℕ) : List (List ℕ) :=
  chunkSizes (foldSizes idx.length k) idx

/-- Modelled from the spec: the split-strategy configurations of spec
section 4.1 (`KFold(n_splits, shuffle, seed)` and
`ShuffleSplit(n_splits, test_size, seed)`). -/
inductive SplitStrategy where
  | kfold (nSplits : ℕ) (useShuffle : Bool) (seed : ℕ)
  | shuffleSplit (nSplits : ℕ) (testSize : ℚ) (seed : ℕ)
deriving DecidableEq

def SplitStrategy.numSplits : SplitStrategy → ℕ
  | .kfold k _ _ => k
  | .shuffleSplit s _ _ => s

/-- Modelled from the spec: `round(test_size * n)` test samples. -/
def shuffleSplitTestCount (t : ℚ) (n : ℕ) : ℕ := (round (t * n)).toNat

/-- Modelled from the spec: `ShuffleSplit` draws, for each of the
`s` iterations, a fresh seeded permutation (seed advanced by the
iteration index) and takes its first `round(t * n)` positions as the
test set, the remainder as the train set (spec section 4.1). -/
def shuffleSplitSplits (s : ℕ) (t : ℚ) (seed n : ℕ) : List (List ℕ × List ℕ) :=
  (List.range s).map (fun i =>
    ((seededShuffle (seed + i) (List.range n)).drop (shuffleSplitTestCount t n),
     (seededShuffle (seed + i) (List.range n)).take (shuffleSplitTestCount t n)))

/-- Modelled from the spec: the full sequence of (train, test) splits a
strategy produces over `n` samples. -/
def strategySplits : SplitStrategy → ℕ → List (List ℕ × List ℕ)
  | .kfold k sh seed, n => splitsFromChunks (chunksOf k (kfoldIndexList sh seed n))
  | .shuffleSplit s t seed, n => shuffleSplitSplits s t seed n

theorem strategySplits_length (c : SplitStrategy) (n : ℕ) :
    (strategySplits c n).length = c.numSplits := by
  cases c with
  | kfold k sh seed =>
      simp [strategySplits, splitsFromChunks, chunksOf, chunkSizes_length,
        foldSizes_length, SplitStrategy.numSplits]
  | shuffleSplit s t seed =>
      simp [strategySplits, shuffleSplitSplits, SplitStrategy.numSplits]

/-! ## Restartable split iterator (C4) -/

/-- Modelled from the spec: a strategy "object" being iterated — the
configuration, the dataset size, and the current position in the
sequence of splits. -/
structure SplitIter where
  strat : SplitStrategy
  size : ℕ
  pos : ℕ
deriving DecidableEq

def SplitIter.init (c : SplitStrategy) (n : ℕ) : SplitIter := ⟨c, n, 0⟩

/-- One step of iteration: the next split, if any, and the advanced
iterator. -/
def SplitIter.next (it : SplitIter) : Option ((List ℕ × List ℕ) × SplitIter) :=
  match (strategySplits it.strat it.size)[it.pos]? with
  | none => none
  | some sp => some (sp, ⟨it.strat, it.size, it.pos + 1⟩)

def iterRunFuel : ℕ → SplitIter → List (List ℕ × List ℕ)
  | 0, _ => []
  | fuel + 1, it =>
      match it.next with
      | none => []
      | some (sp, it2) => sp :: iterRunFuel fuel it2

/-- Run an iterator to exhaustion, collecting the splits it emits. -/
def SplitIter.run (it : SplitIter) : List (List ℕ × List ℕ) :=
  iterRunFuel ((strategySplits it.strat it.size).length + 1) it

/-- Restart the iterator from the beginning. -/
def SplitIter.reset (it : SplitIter) : SplitIter := SplitIter.init it.strat it.size

/-- Consume (and discard) the next `j` splits. -/
def SplitIter.skip : ℕ → SplitIter → SplitIter
  | 0, it => it
  | j + 1, it =>
      match it.next with
      | none => it
      | some (_, it2) => SplitIter.skip j it2

theorem iterRunFuel_eq_drop (fuel : ℕ) :
    ∀ (c : SplitStrategy) (n p : ℕ),
      (strategySplits c n).length - p < fuel →
      iterRunFuel fuel ⟨c, n, p⟩ = (strategySplits c n).drop p := by
  induction fuel with
  | zero => intro c n p h; omega
  | succ fuel ih =>
      intro c n p h
      by_cases hp : p < (strategySplits c n).length
      · have hget : (strategySplits c n)[p]? = some ((strategySplits c n)[p]) :=
          List.getElem?_eq_getElem hp
        simp only [iterRunFuel, SplitIter.next, hget]
        rw [ih c n (p + 1) (by omega), List.drop_eq_getElem_cons hp]
      · have hget : (strategySplits c n)[p]? = none :=
          List.getElem?_eq_none (by omega)
        simp only [iterRunFuel, SplitIter.next, hget]
        rw [List.drop_eq_nil_of_le (by omega)]

theorem splitIter_run_init (c : SplitStrategy) (n : ℕ) :
    (SplitIter.init c n).run = strategySplits c n := by
  show iterRunFuel ((strategySplits c n).length + 1) ⟨c, n, 0⟩ = strategySplits c n
  rw [iterRunFuel_eq_drop _ c n 0 (by omega), List.drop_zero]

theorem splitIter_skip_fields (j : ℕ) :
    ∀ it : SplitIter, (SplitIter.skip j it).strat = it.strat ∧
      (SplitIter.skip j it).size = it.size := by
  induction j with
  | zero => intro it; exact ⟨rfl, rfl⟩
  | succ j ih =>
      intro it
      simp only [SplitIter.skip, SplitIter.next]
      cases (strategySplits it.strat it.size)[it.pos]? with
      | none => exact ⟨rfl, rfl⟩
      | some sp => exact ih _

/-- C4: split strategies are deterministic, finite and restartable —
two runs from identically configured (same seed) strategy objects
produce the same sequence of (train, test) splits; a run yields exactly
the configured number of splits; and restarting an iterator after
consuming any number of splits reproduces the identical sequence. -/
theorem split_strategy_deterministic (c1 c2 : SplitStrategy) (n j : ℕ)
    (hcfg : c1 = c2) :
    (SplitIter.init c1 n).run = (SplitIter.init c2 n).run ∧
    (SplitIter.init c1 n).run = strategySplits c1 n ∧
    (SplitIter.init c1 n).run.length = c1.numSplits ∧
    (SplitIter.reset (SplitIter.skip j (SplitIter.init c1 n))).run =
      (SplitIter.init c1 n).run := by
  subst hcfg
  have hrest : SplitIter.reset (SplitIter.skip j (SplitIter.init c1 n)) =
      SplitIter.init c1 n := by
    rcases splitIter_skip_fields j (SplitIter.init c1 n) with ⟨h1, h2⟩
    rw [SplitIter.reset, h1, h2]
    rfl
  refine ⟨rfl, splitIter_run_init c1 n, ?_, by rw [hrest]⟩
  rw [splitIter_run_init c1 n, strategySplits_length]

/-- Witness for C4 at a concrete configuration: `ShuffleSplit` with
3 splits, test fraction 1/5, seed 7, over 10 samples, restarting after
one consumed split. -/
theorem split_strategy_deterministic_witness :
    (SplitIter.init (SplitStrategy.shuffleSplit 3 (1/5) 7) 10).run =
      (SplitIter.init (SplitStrategy.shuffleSplit 3 (1/5) 7) 10).run ∧
    (SplitIter.init (SplitStrategy.shuffleSplit 3 (1/5) 7) 10).run =
      strategySplits (SplitStrategy.shuffleSplit 3 (1/5) 7) 10 ∧
    (SplitIter.init (SplitStrategy.shuffleSplit 3 (1/5) 7) 10).run.length =
      (SplitStrategy.shuffleSplit 3 (1/5) 7).numSplits ∧
    (SplitIter.reset (SplitIter.skip 1
        (SplitIter.init (SplitStrategy.shuffleSplit 3 (1/5) 7) 10))).run =
      (SplitIter.init (SplitStrategy.shuffleSplit 3 (1/5) 7) 10).run :=
  split_strategy_deterministic (SplitStrategy.shuffleSplit 3 (1/5) 7)
    (SplitStrategy.shuffleSplit 3 (1/5) 7) 10 1 rfl

/-! ## Cross-validation executor (C7) -/

/-- Modelled from the spec: the external estimator capability, consumed
only through fit/predict (spec section 6); `clone` is the identity
because the capability is a pure value. An estimator is the function
taking the training features and labels and the prediction features to
the predictions. -/
structure EstimatorCap where
  fitPredict : List (List ℚ) → List ℚ → List (List ℚ) → List ℚ

/-- Row slice of a feature table by an index list. -/
def selectRows (X : List (List ℚ)) (idx : List ℕ) : List (List ℚ) :=
  idx.map (fun i => X.getD i [])

/-- Slice of a label vector by an index list. -/
def selectLabels (y : List ℚ) (idx : List ℕ) : List ℚ :=
  idx.map (fun i => y.getD i 0)

/-- Modelled from the spec: one per-fold result of the executor (spec
section 3); wall-clock durations are outside the embedding. -/
structure ScoreRecord where
  foldIdx : ℕ
  testScore : ℚ
  trainScore : Option ℚ
deriving DecidableEq

/-- Evaluate one split: fit a fresh clone on the train rows, predict on
the test rows, apply the scoring function (and optionally score the
train rows as well). -/
def evalFold (est : EstimatorCap) (scoring : List ℚ → List ℚ → ℚ)
    (X : List (List ℚ)) (y : List ℚ) (returnTrain : Bool)
    (i : ℕ) (sp : List ℕ × List ℕ) : ScoreRecord :=
  { foldIdx := i
    testScore := scoring (selectLabels y sp.2)
      (est.fitPredict (selectRows X sp.1) (selectLabels y sp.1) (selectRows X sp.2))
    trainScore :=
      if returnTrain then
        some (scoring (selectLabels y sp.1)
          (est.fitPredict (selectRows X sp.1) (selectLabels y sp.1) (selectRows X sp.1)))
      else none }

/-- Modelled from the spec: the sequential (default, single-threaded)
cross-validation executor — one `ScoreRecord` per split, in split order
(spec section 4.2). -/
def cross_validate (est : EstimatorCap) (X : List (List ℚ)) (y : List ℚ)
    (splits : List (List ℕ × List ℕ)) (scoring : List ℚ → List ℚ → ℚ)
    (returnTrain : Bool) : List ScoreRecord :=
  (List.range splits.length).map
    (fun i => evalFold est scoring X y returnTrain i (splits.getD i ([], [])))

/-- First record tagged with the wanted fold index. -/
def lookupRecord (i : ℕ) : List (ℕ × ScoreRecord) → Option ScoreRecord
  | [] => none
  | (j, r) :: rest => if j = i then some r else lookupRecord i rest

/-- Modelled from the spec: the parallel executor (worker count is an
opt-in) — `schedule` is the order in which the worker pool finishes the
fold units; finished units are then reassembled in split order (spec
section 5). -/
def cross_validate_parallel (est : EstimatorCap) (X : List (List ℚ)) (y : List ℚ)
    (splits : List (List ℕ × List ℕ)) (scoring : List ℚ → List ℚ → ℚ)
    (returnTrain : Bool) (schedule : List ℕ) : List ScoreRecord :=
  (List.range splits.length).filterMap
    (fun i => lookupRecord i (schedule.map
      (fun j => (j, evalFold est scoring X y returnTrain j (splits.getD j ([], []))))))

theorem lookupRecord_map (f : ℕ → ScoreRecord) (sched : List ℕ) (i : ℕ)
    (h : i ∈ sched) :
    lookupRecord i (sched.map (fun j => (j, f j))) = some (f i) := by
  induction sched with
  | nil => simp at h
  | cons j rest ih =>
      by_cases hji : j = i
      · subst hji; simp [lookupRecord]
      · have : i ∈ rest := by
          rcases List.mem_cons.mp h with h1 | h1
          · exact absurd h1.symm hji
          · exact h1
        simp [lookupRecord, hji, ih this]

theorem filterMap_of_forall_some {α β : Type} (l : List α)
    (g : α → Option β) (f : α → β) (h : ∀ x ∈ l, g x = some (f x)) :
    l.filterMap g = l.map f := by
  induction l with
  | nil => rfl
  | cons a rest ih =>
      rw [List.filterMap_cons, h a (List.mem_cons_self a rest), List.map_cons,
        ih (fun x hx => h x (List.mem_cons_of_mem a hx))]

/-- C7: for every estimator, dataset, split list, scoring function and
configuration, the parallel executor — whatever completion order its
workers produce, as long as every fold unit completes — returns exactly
the sequential executor's ordered sequence of `ScoreRecord`s. -/
theorem cross_validate_parallel_refines (est : EstimatorCap) (X : List (List ℚ))
    (y : List ℚ) (splits : List (List ℕ × List ℕ))
    (scoring : List ℚ → List ℚ → ℚ) (returnTrain : Bool) (schedule : List ℕ)
    (hsched : ∀ i, i < splits.length → i ∈ schedule) :
    cross_validate_parallel est X y splits scoring returnTrain schedule =
      cross_validate est X y splits scoring returnTrain := by
  apply filterMap_of_forall_some
  intro i hi
  exact lookupRecord_map
    (fun j => evalFold est scoring X y returnTrain j (splits.getD j ([], [])))
    schedule i (hsched i (List.mem_range.mp hi))

/-- Mean predictor used to instantiate witnesses: predicts the training
mean everywhere. -/
def meanEstimator : EstimatorCap :=
  ⟨fun _ ytrain Xtest => Xtest.map (fun _ => ytrain.sum / ytrain.length)⟩

/-- Negated mean absolute error (spec sections 4.5 and 6: error metrics
are pre-negated so that higher is better). -/
def negMAE (ytrue ypred : List ℚ) : ℚ :=
  -(((ytrue.zip ypred).map (fun pr => |pr.1 - pr.2|)).sum / ytrue.length)

/-- Witness for C7: two folds over four samples, completion order
reversed (worker for fold 1 finishes first) — the reassembled records
coincide with the sequential ones. -/
theorem cross_validate_parallel_refines_witness :
    cross_validate_parallel meanEstimator [[1], [2], [3], [4]] [1, 2, 3, 4]
        (strategySplits (SplitStrategy.kfold 2 false 0) 4) negMAE false [1, 0] =
      cross_validate meanEstimator [[1], [2], [3], [4]] [1, 2, 3, 4]
        (strategySplits (SplitStrategy.kfold 2 false 0) 4) negMAE false :=
  cross_validate_parallel_refines meanEstimator [[1], [2], [3], [4]] [1, 2, 3, 4]
    (strategySplits (SplitStrategy.kfold 2 false 0) 4) negMAE false [1, 0]
    (by decide)

/-! ## Hyperparameter search (C3) -/

/-- Parameter names, as character lists so that the lexicographic order
is fully computable. -/
def ParamName : Type := List Char

/-- Lexicographic comparison of parameter names (spec section 3). -/
def nameLe : List Char → List Char → Bool
  | [], _ => true
  | _ :: _, [] => false
  | a :: as, b :: bs =>
      if a.toNat < b.toNat then true
      else if b.toNat < a.toNat then false
      else nameLe as bs

/-- Modelled from the spec: the fixed candidate enumeration order of a
`ParamGrid` — Cartesian product with the given per-parameter value
order, first parameter varying slowest (spec section 3). -/
def enumerateCandidates : List (List Char × List ℚ) → List (List (List Char × ℚ))
  | [] => [[]]
  | p :: rest =>
      p.2.flatMap (fun v => (enumerateCandidates rest).map (fun tail => (p.1, v) :: tail))

/-- Modelled from the spec: full candidate enumeration — parameter names
sorted lexicographically first, then the Cartesian product (spec
section 3). -/
def gridCandidates (g : List (List Char × List ℚ)) : List (List (List Char × ℚ)) :=
  enumerateCandidates (List.insertionSort (fun a b => nameLe a.1 b.1 = true) g)

/-- Index of the first maximum of a score list (ties broken towards the
earlier index). -/
def argmaxFirst : List ℚ → ℕ
  | [] => 0
  | [_] => 0
  | x :: y :: t =>
      if (y :: t).getD (argmaxFirst (y :: t)) 0 ≤ x then 0
      else argmaxFirst (y :: t) + 1

theorem argmaxFirst_lt_length (l : List ℚ) (h : l ≠ []) :
    argmaxFirst l < l.length := by
  induction l with
  | nil => exact absurd rfl h
  | cons x xs ih =>
      cases xs with
      | nil => simp [argmaxFirst]
      | cons y t =>
          have hlt := ih (List.cons_ne_nil y t)
          by_cases hc : (y :: t).getD (argmaxFirst (y :: t)) 0 ≤ x
          · rw [argmaxFirst, if_pos hc]
            simp
          · rw [argmaxFirst, if_neg hc]
            simp only [List.length_cons] at hlt ⊢
            omega

theorem argmaxFirst_is_max (l : List ℚ) :
    ∀ j, j < l.length → l.getD j 0 ≤ l.getD (argmaxFirst l) 0 := by
  induction l with
  | nil => intro j hj; simp at hj
  | cons x xs ih =>
      cases xs with
      | nil =>
          intro j hj
          simp only [List.length_cons, List.length_nil] at hj
          have hj0 : j = 0 := by omega
          subst hj0
          simp [argmaxFirst]
      | cons y t =>
          intro j hj
          by_cases hc : (y :: t).getD (argmaxFirst (y :: t)) 0 ≤ x
          · simp only [argmaxFirst, if_pos hc, List.getD_cons_zero]
            cases j with
            | zero => simp
            | succ j' =>
                rw [List.getD_cons_succ]
                exact le_trans (ih j' (by simpa using hj)) hc
          · simp only [argmaxFirst, if_neg hc, List.getD_cons_succ]
            cases j with
            | zero =>
                rw [List.getD_cons_zero]
                exact le_of_lt (lt_of_not_le hc)
            | succ j' => exact ih j' (by simpa using hj)

theorem argmaxFirst_strict_before (l : List ℚ) :
    ∀ j, j < argmaxFirst l → l.getD j 0 < l.getD (argmaxFirst l) 0 := by
  induction l with
  | nil => intro j hj; simp [argmaxFirst] at hj
  | cons x xs ih =>
      cases xs with
      | nil => intro j hj; simp [argmaxFirst] at hj
      | cons y t =>
          intro j hj
          by_cases hc : (y :: t).getD (argmaxFirst (y :: t)) 0 ≤ x
          · rw [argmaxFirst, if_pos hc] at hj
            omega
          · rw [argmaxFirst, if_neg hc] at hj ⊢
            rw [List.getD_cons_succ]
            cases j with
            | zero =>
                rw [List.getD_cons_zero]
                exact lt_of_not_le hc
            | succ j' =>
                rw [List.getD_cons_succ]
                exact ih j' (by omega)

/-- Modelled from the spec: the `HyperparameterSearchEstimator`
(`GridSearchCV` in the scripts) — a model template instantiated per
candidate, a parameter grid, and an inner split strategy (spec
section 4.3). -/
structure GridSearchCV where
  estOf : List (List Char × ℚ) → EstimatorCap
  param_grid : List (List Char × List ℚ)
  cv : SplitStrategy

/-- Mean of the per-fold test scores. -/
def meanTestScore (records : List ScoreRecord) : ℚ :=
  (records.map ScoreRecord.testScore).sum / records.length

/-- Modelled from the spec: a candidate's mean inner validation score —
run the executor with the inner strategy and average the test scores
(spec section 4.3). -/
def candidateScore (gs : GridSearchCV) (scoring : List ℚ → List ℚ → ℚ)
    (X : List (List ℚ)) (y : List ℚ) (p : List (List Char × ℚ)) : ℚ :=
  meanTestScore
    (cross_validate (gs.estOf p) X y (strategySplits gs.cv y.length) scoring false)

/-- The selected candidate position of a grid-search fit. -/
def bestIndex (gs : GridSearchCV) (scoring : List ℚ → List ℚ → ℚ)
    (X : List (List ℚ)) (y : List ℚ) : ℕ :=
  argmaxFirst ((gridCandidates gs.param_grid).map (candidateScore gs scoring X y))

/-- Modelled from the spec: `best_params` recorded by `fit` (spec
section 4.3). -/
def best_params (gs : GridSearchCV) (scoring : List ℚ → List ℚ → ℚ)
    (X : List (List ℚ)) (y : List ℚ) : List (List Char × ℚ) :=
  (gridCandidates gs.param_grid).getD (bestIndex gs scoring X y) []

/-- Modelled from the spec: `best_score` recorded by `fit` — the winning
candidate's mean inner validation score (spec section 4.3). -/
def best_score (gs : GridSearchCV) (scoring : List ℚ → List ℚ → ℚ)
    (X : List (List ℚ)) (y : List ℚ) : ℚ :=
  ((gridCandidates gs.param_grid).map (candidateScore gs scoring X y)).getD
    (bestIndex gs scoring X y) 0

theorem getD_map_lt {α β : Type} (f : α → β) (l : List α) (j : ℕ)
    (h : j < l.length) (d : α) (d2 : β) :
    (l.map f).getD j d2 = f (l.getD j d) := by
  rw [List.getD_eq_getElem (l.map f) d2 (by simpa using h), List.getElem_map,
    List.getD_eq_getElem l d h]

/-- C3: for every parameter grid, dataset and scoring function, the
grid-search fit selects the candidate whose mean inner validation score
is maximal, and on equal mean scores the candidate that comes first in
the fixed (sorted parameter names, then Cartesian product) enumeration
order wins. -/
theorem grid_search_selects_best (gs : GridSearchCV)
    (scoring : List ℚ → List ℚ → ℚ) (X : List (List ℚ)) (y : List ℚ)
    (hne : gridCandidates gs.param_grid ≠ []) :
    bestIndex gs scoring X y < (gridCandidates gs.param_grid).length ∧
    best_params gs scoring X y =
      (gridCandidates gs.param_grid).getD (bestIndex gs scoring X y) [] ∧
    (∀ j, j < (gridCandidates gs.param_grid).length →
      candidateScore gs scoring X y ((gridCandidates gs.param_grid).getD j []) ≤
        best_score gs scoring X y) ∧
    (∀ j, j < bestIndex gs scoring X y →
      candidateScore gs scoring X y ((gridCandidates gs.param_grid).getD j []) <
        best_score gs scoring X y) ∧
    (∀ j, j < (gridCandidates gs.param_grid).length →
      candidateScore gs scoring X y ((gridCandidates gs.param_grid).getD j []) =
        best_score gs scoring X y →
      bestIndex gs scoring X y ≤ j) := by
  have hlen : ((gridCandidates gs.param_grid).map
      (candidateScore gs scoring X y)).length =
      (gridCandidates gs.param_grid).length := List.length_map _ _
  have hltlen : bestIndex gs scoring X y < (gridCandidates gs.param_grid).length := by
    rw [bestIndex, ← hlen]
    exact argmaxFirst_lt_length _ (by simpa using hne)
  have hbest : best_score gs scoring X y =
      candidateScore gs scoring X y
        ((gridCandidates gs.param_grid).getD (bestIndex gs scoring X y) []) := by
    rw [best_score, getD_map_lt (candidateScore gs scoring X y) _ _ hltlen []]
  have hmax : ∀ j, j < (gridCandidates gs.param_grid).length →
      candidateScore gs scoring X y ((gridCandidates gs.param_grid).getD j []) ≤
        best_score gs scoring X y := by
    intro j hj
    have := argmaxFirst_is_max
      ((gridCandidates gs.param_grid).map (candidateScore gs scoring X y)) j
      (by rw [hlen]; exact hj)
    rw [getD_map_lt (candidateScore gs scoring X y) _ _ hj []] at this
    exact this
  have hstrict : ∀ j, j < bestIndex gs scoring X y →
      candidateScore gs scoring X y ((gridCandidates gs.param_grid).getD j []) <
        best_score gs scoring X y := by
    intro j hj
    have hjlen : j < (gridCandidates gs.param_grid).length :=
      lt_trans hj hltlen
    have := argmaxFirst_strict_before
      ((gridCandidates gs.param_grid).map (candidateScore gs scoring X y)) j hj
    rw [getD_map_lt (candidateScore gs scoring X y) _ _ hjlen []] at this
    exact this
  refine ⟨hltlen, rfl, hmax, hstrict, ?_⟩
  intro j hj heq
  by_contra hlt
  exact absurd heq (ne_of_lt (hstrict j (by omega)))

/-- Witness for C3 at the repository's grid
`{C: [0.1, 1, 10], gamma: [0.01, 0.1]}` with a 2-fold inner strategy
over four samples. -/
theorem grid_search_selects_best_witness :
    gridCandidates [(['C'], [1/10, 1, 10]), (['g','a','m','m','a'], [1/100, 1/10])] ≠ [] ∧
    bestIndex ⟨fun _ => meanEstimator,
        [(['C'], [1/10, 1, 10]), (['g','a','m','m','a'], [1/100, 1/10])],
        SplitStrategy.kfold 2 false 0⟩ negMAE [[1], [2], [3], [4]] [1, 2, 3, 4] <
      (gridCandidates [(['C'], [1/10, 1, 10]), (['g','a','m','m','a'], [1/100, 1/10])]).length :=
  ⟨by decide,
    (grid_search_selects_best ⟨fun _ => meanEstimator,
      [(['C'], [1/10, 1, 10]), (['g','a','m','m','a'], [1/100, 1/10])],
      SplitStrategy.kfold 2 false 0⟩ negMAE [[1], [2], [3], [4]] [1, 2, 3, 4]
      (by decide)).1⟩

/-! ## Nested cross-validation non-leakage (C1) -/

theorem chunkSizes_mem_subset {α : Type} (ss : List ℕ) (l : List α) :
    ∀ c ∈ chunkSizes ss l, ∀ x ∈ c, x ∈ l := by
  intro c hc x hx
  have hflat : x ∈ (chunkSizes ss l).flatten := List.mem_flatten.mpr ⟨c, hc, hx⟩
  rw [chunkSizes_flatten] at hflat
  exact List.mem_of_mem_take hflat

theorem splitsFromChunks_mem_flatten (cs : List (List ℕ))
    (sp : List ℕ × List ℕ) (hsp : sp ∈ splitsFromChunks cs) :
    ∀ p ∈ sp.1 ++ sp.2, p ∈ cs.flatten := by
  rcases List.mem_map.mp hsp with ⟨i, hi, hspi⟩
  have hilt : i < cs.length := List.mem_range.mp hi
  intro p hp
  subst hspi
  simp only [List.mem_append] at hp
  rcases hp with (hp | hp) | hp
  · rcases List.mem_flatten.mp hp with ⟨c, hc, hpc⟩
    exact List.mem_flatten.mpr ⟨c, List.mem_of_mem_take hc, hpc⟩
  · rcases List.mem_flatten.mp hp with ⟨c, hc, hpc⟩
    exact List.mem_flatten.mpr ⟨c, List.mem_of_mem_drop hc, hpc⟩
  · rw [List.getD_eq_getElem cs [] hilt] at hp
    exact List.mem_flatten.mpr ⟨cs[i], List.getElem_mem hilt, hp⟩

theorem kfoldIndexList_mem_lt (sh : Bool) (seed n : ℕ) :
    ∀ x ∈ kfoldIndexList sh seed n, x < n := by
  intro x hx
  rw [kfoldIndexList] at hx
  cases sh with
  | false => simpa using List.mem_range.mp (by simpa using hx)
  | true =>
      have := seededShuffle_subset seed (List.range n) x (by simpa using hx)
      exact List.mem_range.mp this

theorem kfoldIndexList_nodup (sh : Bool) (seed n : ℕ) :
    (kfoldIndexList sh seed n).Nodup := by
  rw [kfoldIndexList]
  cases sh with
  | false => simpa using List.nodup_range n
  | true => simpa using seededShuffle_nodup seed (List.range n) (List.nodup_range n)

/-- Every train or test position a strategy emits is a valid row index. -/
theorem strategySplits_positions_lt (c : SplitStrategy) (n : ℕ) :
    ∀ sp ∈ strategySplits c n, ∀ p ∈ sp.1 ++ sp.2, p < n := by
  intro sp hsp p hp
  cases c with
  | kfold k sh seed =>
      have hmem : p ∈ (chunksOf k (kfoldIndexList sh seed n)).flatten :=
        splitsFromChunks_mem_flatten _ sp hsp p hp
      rcases List.mem_flatten.mp hmem with ⟨ch, hch, hpch⟩
      exact kfoldIndexList_mem_lt sh seed n p
        (chunkSizes_mem_subset _ _ ch hch p hpch)
  | shuffleSplit s t seed =>
      rcases List.mem_map.mp hsp with ⟨i, _, hspi⟩
      subst hspi
      simp only [List.mem_append] at hp
      have hperm : p ∈ seededShuffle (seed + i) (List.range n) := by
        rcases hp with hp | hp
        · exact List.mem_of_mem_drop hp
        · exact List.mem_of_mem_take hp
      exact List.mem_range.mp (seededShuffle_subset _ _ p hperm)

theorem flatten_nodup_chunk_disjoint (cs : List (List ℕ)) (i : ℕ)
    (hi : i < cs.length) (hn : cs.flatten.Nodup) :
    ∀ x ∈ cs.getD i [], x ∉ (cs.take i).flatten ++ (cs.drop (i + 1)).flatten := by
  have hdec : cs.take i ++ cs[i] :: cs.drop (i + 1) = cs := by
    rw [← List.drop_eq_getElem_cons hi, List.take_append_drop]
  have hn2 : ((cs.take i).flatten ++ (cs[i] ++ (cs.drop (i + 1)).flatten)).Nodup := by
    rw [← List.flatten_cons, ← List.flatten_append, hdec]
    exact hn
  rcases List.nodup_append.mp hn2 with ⟨_, h2, h3⟩
  rcases List.nodup_append.mp h2 with ⟨_, _, h6⟩
  intro x hx hmem
  rw [List.getD_eq_getElem cs [] hi] at hx
  rcases List.mem_append.mp hmem with h | h
  · exact h3 h (List.mem_append.mpr (Or.inl hx))
  · exact h6 hx h

/-- Every split a strategy emits keeps its test set disjoint from its
train set. -/
theorem strategySplits_train_test_disjoint (c : SplitStrategy) (n : ℕ) :
    ∀ sp ∈ strategySplits c n, ∀ p ∈ sp.2, p ∉ sp.1 := by
  intro sp hsp p hp2 hp1
  cases c with
  | kfold k sh seed =>
      rcases List.mem_map.mp hsp with ⟨i, hi, hspi⟩
      have hilt : i < (chunksOf k (kfoldIndexList sh seed n)).length :=
        List.mem_range.mp hi
      have hflat : (chunksOf k (kfoldIndexList sh seed n)).flatten.Nodup := by
        rw [chunksOf, chunkSizes_flatten]
        exact (kfoldIndexList_nodup sh seed n).sublist (List.take_sublist _ _)
      subst hspi
      exact flatten_nodup_chunk_disjoint _ i hilt hflat p hp2 hp1
  | shuffleSplit s t seed =>
      rcases List.mem_map.mp hsp with ⟨i, _, hspi⟩
      subst hspi
      have hnd : (seededShuffle (seed + i) (List.range n)).Nodup :=
        seededShuffle_nodup _ _ (List.nodup_range n)
      have hdisj := List.disjoint_take_drop hnd
        (le_refl (shuffleSplitTestCount t n))
      exact hdisj hp2 hp1

/-- All inner positions the hyperparameter search touches during one
outer `fit`: for every candidate of the grid, every train and test
position of every inner split, plus the final refit on the entire inner
data (positions `0 .. m-1`). -/
def innerFitPredictPositions (gs : GridSearchCV) (m : ℕ) : List ℕ :=
  ((gridCandidates gs.param_grid).flatMap (fun _ =>
    (strategySplits gs.cv m).flatMap (fun sp => sp.1 ++ sp.2))) ++ List.range m

/-- The dataset rows the inner search touches, given that the outer
executor hands it exactly the rows of the outer train set: inner
position `p` addresses row `outerTrain[p]`. -/
def innerAccessedRows (gs : GridSearchCV) (outerTrain : List ℕ) : List ℕ :=
  (innerFitPredictPositions gs outerTrain.length).map (fun p => outerTrain.getD p 0)

/-- C1: for every outer split of any outer strategy, every row the inner
hyperparameter search ever fits or predicts on — across all candidate
evaluations, all inner splits and the final refit — lies in the outer
split's train set, and no outer test row is ever exposed to it. -/
theorem nested_cv_no_leakage (gs : GridSearchCV) (outer : SplitStrategy)
    (n : ℕ) (sp : List ℕ × List ℕ) (hsp : sp ∈ strategySplits outer n) :
    (∀ r ∈ innerAccessedRows gs sp.1, r ∈ sp.1) ∧
    (∀ r ∈ sp.2, r ∉ innerAccessedRows gs sp.1) := by
  have haccess : ∀ r ∈ innerAccessedRows gs sp.1, r ∈ sp.1 := by
    intro r hr
    rcases List.mem_map.mp hr with ⟨p, hp, hpr⟩
    have hplt : p < sp.1.length := by
      rcases List.mem_append.mp hp with h | h
      · rcases List.mem_flatMap.mp h with ⟨_, _, hin⟩
        rcases List.mem_flatMap.mp hin with ⟨isp, hisp, hpin⟩
        exact strategySplits_positions_lt gs.cv sp.1.length isp hisp p hpin
      · exact List.mem_range.mp h
    rw [← hpr, List.getD_eq_getElem sp.1 0 hplt]
    exact List.getElem_mem hplt
  refine ⟨haccess, fun r hr hmem => ?_⟩
  exact strategySplits_train_test_disjoint outer n sp hsp r hr (haccess r hmem)

/-- Witness for C1: a concrete nested configuration — outer 2-fold over
4 samples, inner 2-fold, grid `{C: [1, 10]}` — at its first outer split. -/
theorem nested_cv_no_leakage_witness :
    (∀ r ∈ innerAccessedRows
        ⟨fun _ => meanEstimator, [(['C'], [1, 10])], SplitStrategy.kfold 2 false 0⟩
        ([2, 3], [0, 1]).1, r ∈ ([2, 3], [0, 1]).1) ∧
    (∀ r ∈ ([2, 3], [0, 1]).2, r ∉ innerAccessedRows
        ⟨fun _ => meanEstimator, [(['C'], [1, 10])], SplitStrategy.kfold 2 false 0⟩
        ([2, 3], [0, 1]).1) :=
  nested_cv_no_leakage
    ⟨fun _ => meanEstimator, [(['C'], [1, 10])], SplitStrategy.kfold 2 false 0⟩
    (SplitStrategy.kfold 2 false 0) 4 ([2, 3], [0, 1]) (by decide)

/-! ## Scalar classification metrics (C5, C8) -/

/-- True positives for a fixed positive label. -/
def tpCount {α : Type} [DecidableEq α] (yt yp : List α) (pos : α) : ℕ :=
  (yt.zip yp).countP (fun pr => decide (pr.1 = pos) && decide (pr.2 = pos))

/-- False negatives: truly positive, predicted otherwise. -/
def fnCount {α : Type} [DecidableEq α] (yt yp : List α) (pos : α) : ℕ :=
  (yt.zip yp).countP (fun pr => decide (pr.1 = pos) && !decide (pr.2 = pos))

/-- False positives: predicted positive, truly otherwise. -/
def fpCount {α : Type} [DecidableEq α] (yt yp : List α) (pos : α) : ℕ :=
  (yt.zip yp).countP (fun pr => !decide (pr.1 = pos) && decide (pr.2 = pos))

/-- True negatives: neither true nor predicted label is the positive. -/
def tnCount {α : Type} [DecidableEq α] (yt yp : List α) (pos : α) : ℕ :=
  (yt.zip yp).countP (fun pr => !decide (pr.1 = pos) && !decide (pr.2 = pos))

/-- Number of predicted positives. -/
def predictedPosCount {α : Type} [DecidableEq α] (yp : List α) (pos : α) : ℕ :=
  yp.countP (fun v => decide (v = pos))

/-- Number of truly positive samples. -/
def actualPosCount {α : Type} [DecidableEq α] (yt : List α) (pos : α) : ℕ :=
  yt.countP (fun v => decide (v = pos))

/-- Number of correctly classified samples. -/
def correctCount {α : Type} [DecidableEq α] (yt yp : List α) : ℕ :=
  (yt.zip yp).countP (fun pr => decide (pr.1 = pr.2))

/-- Modelled from the spec: `precision_score` with the mandated
division-by-zero policy — value plus ill-defined flag; no positive
prediction yields the sentinel `0` and the flag (spec sections 4.5
and 7). -/
def precisionResult {α : Type} [DecidableEq α] (yt yp : List α) (pos : α) : ℚ × Bool :=
  if predictedPosCount yp pos = 0 then (0, true)
  else ((tpCount yt yp pos : ℚ) / (predictedPosCount yp pos : ℚ), false)

def precision_score {α : Type} [DecidableEq α] (yt yp : List α) (pos : α) : ℚ :=
  (precisionResult yt yp pos).1

/-- Modelled from the spec: `recall_score` with the division-by-zero
policy (spec sections 4.5 and 7). -/
def recallResult {α : Type} [DecidableEq α] (yt yp : List α) (pos : α) : ℚ × Bool :=
  if actualPosCount yt pos = 0 then (0, true)
  else ((tpCount yt yp pos : ℚ) / (actualPosCount yt pos : ℚ), false)

def recall_score {α : Type} [DecidableEq α] (yt yp : List α) (pos : α) : ℚ :=
  (recallResult yt yp pos).1

/-- Modelled from the spec: `f1_score` with the division-by-zero policy
(spec sections 4.5 and 7). -/
def f1Result {α : Type} [DecidableEq α] (yt yp : List α) (pos : α) : ℚ × Bool :=
  if precision_score yt yp pos + recall_score yt yp pos = 0 then (0, true)
  else (2 * precision_score yt yp pos * recall_score yt yp pos /
    (precision_score yt yp pos + recall_score yt yp pos), false)

def f1_score {α : Type} [DecidableEq α] (yt yp : List α) (pos : α) : ℚ :=
  (f1Result yt yp pos).1

/-- Modelled from the spec: `accuracy_score = correct / n`
(spec section 4.5). -/
def accuracy_score {α : Type} [DecidableEq α] (yt yp : List α) : ℚ :=
  (correctCount yt yp : ℚ) / (yt.length : ℚ)

/-- The distinct labels occurring in either vector. -/
def classLabels {α : Type} [DecidableEq α] (yt yp : List α) : List α :=
  (yt ++ yp).dedup

/-- Modelled from the spec: `balanced_accuracy_score` — the mean of the
per-class recalls over all classes (spec section 4.5). -/
def balanced_accuracy_score {α : Type} [DecidableEq α] (yt yp : List α) : ℚ :=
  ((classLabels yt yp).map (fun c => recall_score yt yp c)).sum /
    ((classLabels yt yp).length : ℚ)

theorem zip_countP_fst {α β : Type} (yt : List α) (yp : List β)
    (hlen : yt.length = yp.length) (p : α → Bool) :
    (yt.zip yp).countP (fun pr => p pr.1) = yt.countP p := by
  conv_rhs => rw [← List.map_fst_zip yt yp (le_of_eq hlen)]
  rw [List.countP_map]
  rfl

theorem zip_countP_snd {α β : Type} (yt : List α) (yp : List β)
    (hlen : yt.length = yp.length) (p : β → Bool) :
    (yt.zip yp).countP (fun pr => p pr.2) = yp.countP p := by
  conv_rhs => rw [← List.map_snd_zip yt yp (le_of_eq hlen.symm)]
  rw [List.countP_map]
  rfl

theorem countP_and_split {α : Type} (l : List α) (A B : α → Bool) :
    l.countP (fun x => A x && B x) + l.countP (fun x => !A x && B x) =
      l.countP B := by
  induction l with
  | nil => rfl
  | cons a t ih =>
      simp only [List.countP_cons]
      cases hA : A a <;> cases hB : B a <;> simp [hA, hB] <;> omega

theorem countP_and_not_split {α : Type} (l : List α) (A B : α → Bool) :
    l.countP (fun x => A x && B x) + l.countP (fun x => A x && !B x) =
      l.countP A := by
  induction l with
  | nil => rfl
  | cons a t ih =>
      simp only [List.countP_cons]
      cases hA : A a <;> cases hB : B a <;> simp [hA, hB] <;> omega

theorem tp_fp_eq_predicted {α : Type} [DecidableEq α] (yt yp : List α)
    (pos : α) (hlen : yt.length = yp.length) :
    tpCount yt yp pos + fpCount yt yp pos = predictedPosCount yp pos := by
  have h := countP_and_split (yt.zip yp)
    (fun pr => decide (pr.1 = pos)) (fun pr => decide (pr.2 = pos))
  have h2 := zip_countP_snd yt yp hlen (fun v => decide (v = pos))
  exact h.trans h2

theorem tp_fn_eq_actual {α : Type} [DecidableEq α] (yt yp : List α)
    (pos : α) (hlen : yt.length = yp.length) :
    tpCount yt yp pos + fnCount yt yp pos = actualPosCount yt pos := by
  have h := countP_and_not_split (yt.zip yp)
    (fun pr => decide (pr.1 = pos)) (fun pr => decide (pr.2 = pos))
  have h2 := zip_countP_fst yt yp hlen (fun v => decide (v = pos))
  exact h.trans h2

/-- C5: the scalar classification metrics satisfy their confusion-matrix
definitions — precision = TP/(TP+FP), recall = TP/(TP+FN),
F1 = 2PR/(P+R), accuracy = correct/n, balanced accuracy = mean of
per-class recall. -/
theorem metrics_confusion_identities {α : Type} [DecidableEq α] (yt yp : List α)
    (pos : α) (hlen : yt.length = yp.length) :
    precision_score yt yp pos =
      (tpCount yt yp pos : ℚ) / ((tpCount yt yp pos : ℚ) + (fpCount yt yp pos : ℚ)) ∧
    recall_score yt yp pos =
      (tpCount yt yp pos : ℚ) / ((tpCount yt yp pos : ℚ) + (fnCount yt yp pos : ℚ)) ∧
    f1_score yt yp pos =
      2 * precision_score yt yp pos * recall_score yt yp pos /
        (precision_score yt yp pos + recall_score yt yp pos) ∧
    accuracy_score yt yp = (correctCount yt yp : ℚ) / (yt.length : ℚ) ∧
    balanced_accuracy_score yt yp =
      ((classLabels yt yp).map (fun c => recall_score yt yp c)).sum /
        ((classLabels yt yp).length : ℚ) := by
  have hsum : (tpCount yt yp pos : ℚ) + (fpCount yt yp pos : ℚ) =
      (predictedPosCount yp pos : ℚ) := by
    rw [← Nat.cast_add, tp_fp_eq_predicted yt yp pos hlen]
  have hsum2 : (tpCount yt yp pos : ℚ) + (fnCount yt yp pos : ℚ) =
      (actualPosCount yt pos : ℚ) := by
    rw [← Nat.cast_add, tp_fn_eq_actual yt yp pos hlen]
  refine ⟨?_, ?_, ?_, rfl, rfl⟩
  · rw [hsum, precision_score, precisionResult]
    by_cases hz : predictedPosCount yp pos = 0
    · rw [if_pos hz, hz]
      simp
    · rw [if_neg hz]
  · rw [hsum2, recall_score, recallResult]
    by_cases hz : actualPosCount yt pos = 0
    · rw [if_pos hz, hz]
      simp
    · rw [if_neg hz]
  · rw [f1_score, f1Result]
    by_cases hz : precision_score yt yp pos + recall_score yt yp pos = 0
    · rw [if_pos hz, hz]
      simp
    · rw [if_neg hz]

/-- Witness for C5 at the spec scenario `y_true=[1,1,0,0]`,
`y_pred=[1,0,0,0]`, positive label 1: TP=1, FN=1, TN=2, FP=0,
precision 1, recall 1/2, F1 = 2/3. -/
theorem metrics_confusion_identities_witness :
    tpCount ([1, 1, 0, 0] : List ℕ) [1, 0, 0, 0] 1 = 1 ∧
    fnCount ([1, 1, 0, 0] : List ℕ) [1, 0, 0, 0] 1 = 1 ∧
    tnCount ([1, 1, 0, 0] : List ℕ) [1, 0, 0, 0] 1 = 2 ∧
    fpCount ([1, 1, 0, 0] : List ℕ) [1, 0, 0, 0] 1 = 0 ∧
    precision_score ([1, 1, 0, 0] : List ℕ) [1, 0, 0, 0] 1 = 1 ∧
    recall_score ([1, 1, 0, 0] : List ℕ) [1, 0, 0, 0] 1 = 1 / 2 ∧
    f1_score ([1, 1, 0, 0] : List ℕ) [1, 0, 0, 0] 1 = 2 / 3 ∧
    precision_score ([1, 1, 0, 0] : List ℕ) [1, 0, 0, 0] 1 =
      (tpCount ([1, 1, 0, 0] : List ℕ) [1, 0, 0, 0] 1 : ℚ) /
        ((tpCount ([1, 1, 0, 0] : List ℕ) [1, 0, 0, 0] 1 : ℚ) +
          (fpCount ([1, 1, 0, 0] : List ℕ) [1, 0, 0, 0] 1 : ℚ)) := by
  have htp : tpCount ([1, 1, 0, 0] : List ℕ) [1, 0, 0, 0] 1 = 1 := by decide
  have hpred : predictedPosCount ([1, 0, 0, 0] : List ℕ) 1 = 1 := by decide
  have hact : actualPosCount ([1, 1, 0, 0] : List ℕ) 1 = 2 := by decide
  have hprec : precision_score ([1, 1, 0, 0] : List ℕ) [1, 0, 0, 0] 1 = 1 := by
    rw [precision_score, precisionResult, hpred, htp]
    norm_num
  have hrec : recall_score ([1, 1, 0, 0] : List ℕ) [1, 0, 0, 0] 1 = 1 / 2 := by
    rw [recall_score, recallResult, hact, htp]
    norm_num
  have hf1 : f1_score ([1, 1, 0, 0] : List ℕ) [1, 0, 0, 0] 1 = 2 / 3 := by
    rw [f1_score, f1Result, hprec, hrec]
    norm_num
  exact ⟨htp, by decide, by decide, by decide, hprec, hrec, hf1,
    (metrics_confusion_identities ([1, 1, 0, 0] : List ℕ) [1, 0, 0, 0] 1 rfl).1⟩

/-- C8: every division-by-zero case of precision, recall and F1 resolves
to the sentinel value 0 together with the ill-defined flag (never an
exception and never a NaN — all results are total rationals), and the
flag is raised in exactly the degenerate cases. -/
theorem degenerate_metrics_flagged {α : Type} [DecidableEq α] (yt yp : List α)
    (pos : α) :
    (predictedPosCount yp pos = 0 → precisionResult yt yp pos = (0, true)) ∧
    (actualPosCount yt pos = 0 → recallResult yt yp pos = (0, true)) ∧
    (precision_score yt yp pos + recall_score yt yp pos = 0 →
      f1Result yt yp pos = (0, true)) ∧
    ((precisionResult yt yp pos).2 = true ↔ predictedPosCount yp pos = 0) ∧
    ((recallResult yt yp pos).2 = true ↔ actualPosCount yt pos = 0) ∧
    ((f1Result yt yp pos).2 = true ↔
      precision_score yt yp pos + recall_score yt yp pos = 0) := by
  refine ⟨fun h => by rw [precisionResult, if_pos h],
    fun h => by rw [recallResult, if_pos h],
    fun h => by rw [f1Result, if_pos h], ?_, ?_, ?_⟩
  · rw [precisionResult]
    by_cases h : predictedPosCount yp pos = 0
    · rw [if_pos h]; simp [h]
    · rw [if_neg h]; simp [h]
  · rw [recallResult]
    by_cases h : actualPosCount yt pos = 0
    · rw [if_pos h]; simp [h]
    · rw [if_neg h]; simp [h]
  · rw [f1Result]
    by_cases h : precision_score yt yp pos + recall_score yt yp pos = 0
    · rw [if_pos h]; simp [h]
    · rw [if_neg h]; simp [h]

/-- Witness for C8: three concrete degenerate inputs — no positive
prediction, no positive ground truth, precision + recall = 0. -/
theorem degenerate_metrics_flagged_witness :
    precisionResult ([1, 0] : List ℕ) [0, 0] 1 = (0, true) ∧
    recallResult ([0, 0] : List ℕ) [1, 0] 1 = (0, true) ∧
    f1Result ([1, 0] : List ℕ) [0, 1] 1 = (0, true) :=
  ⟨(degenerate_metrics_flagged ([1, 0] : List ℕ) [0, 0] 1).1 (by decide),
    (degenerate_metrics_flagged ([0, 0] : List ℕ) [1, 0] 1).2.1 (by decide),
    (degenerate_metrics_flagged ([1, 0] : List ℕ) [0, 1] 1).2.2.1 (by
      have h0 : tpCount ([1, 0] : List ℕ) [0, 1] 1 = 0 := by decide
      have hp : predictedPosCount ([0, 1] : List ℕ) 1 = 1 := by decide
      have ha : actualPosCount ([1, 0] : List ℕ) 1 = 1 := by decide
      rw [precision_score, precisionResult, recall_score, recallResult, hp, ha, h0]
      norm_num)⟩

/-! ## Threshold curves and AUC (C6) -/

/-- True positives at a decision threshold: truly positive and scored at
or above the threshold. -/
def tpAt {α : Type} [DecidableEq α] (yt : List α) (scores : List ℚ) (pos : α)
    (thr : ℚ) : ℕ :=
  (yt.zip scores).countP (fun pr => decide (pr.1 = pos) && decide (thr ≤ pr.2))

/-- False positives at a decision threshold. -/
def fpAt {α : Type} [DecidableEq α] (yt : List α) (scores : List ℚ) (pos : α)
    (thr : ℚ) : ℕ :=
  (yt.zip scores).countP (fun pr => !decide (pr.1 = pos) && decide (thr ≤ pr.2))

/-- Number of samples predicted positive at a threshold. -/
def predCountAt {α : Type} (yt : List α) (scores : List ℚ) (thr : ℚ) : ℕ :=
  (yt.zip scores).countP (fun pr => decide (thr ≤ pr.2))

/-- Number of truly negative samples. -/
def negCount {α : Type} [DecidableEq α] (yt : List α) (pos : α) : ℕ :=
  yt.countP (fun v => !decide (v = pos))

/-- True-positive rate (recall) at a threshold. -/
def tprAt {α : Type} [DecidableEq α] (yt : List α) (scores : List ℚ) (pos : α)
    (thr : ℚ) : ℚ :=
  (tpAt yt scores pos thr : ℚ) / (actualPosCount yt pos : ℚ)

/-- False-positive rate at a threshold. -/
def fprAt {α : Type} [DecidableEq α] (yt : List α) (scores : List ℚ) (pos : α)
    (thr : ℚ) : ℚ :=
  (fpAt yt scores pos thr : ℚ) / (negCount yt pos : ℚ)

/-- Precision at a threshold. -/
def precisionAt {α : Type} [DecidableEq α] (yt : List α) (scores : List ℚ)
    (pos : α) (thr : ℚ) : ℚ :=
  (tpAt yt scores pos thr : ℚ) / (predCountAt yt scores thr : ℚ)

/-- A threshold strictly above every score: under it nothing is
predicted positive. -/
def topThreshold (scores : List ℚ) : ℚ := scores.foldr max 0 + 1

/-- Descending order on rationals, used to sweep thresholds. -/
def geQ (a b : ℚ) : Prop := b ≤ a

instance : DecidableRel geQ := fun a b => inferInstanceAs (Decidable (b ≤ a))

instance : IsTotal ℚ geQ := ⟨fun a b => le_total b a⟩

instance : IsTrans ℚ geQ := ⟨fun _ _ _ h1 h2 => le_trans h2 h1⟩

/-- Modelled from the spec: the swept decision thresholds — the unique
score values in descending order, preceded by a threshold above all
scores so that the "no positive predictions" boundary point is always
present (spec section 4.5). -/
def descThresholds (scores : List ℚ) : List ℚ :=
  List.insertionSort geQ scores.dedup

def thresholdSweep (scores : List ℚ) : List ℚ :=
  topThreshold scores :: descThresholds scores

/-- Modelled from the spec: the ROC curve — for every swept threshold
the triple (threshold, false-positive rate, true-positive rate)
(spec section 4.5). -/
def roc_curve {α : Type} [DecidableEq α] (yt : List α) (scores : List ℚ)
    (pos : α) : List (ℚ × ℚ × ℚ) :=
  (thresholdSweep scores).map
    (fun t => (t, fprAt yt scores pos t, tprAt yt scores pos t))

/-- Modelled from the spec: the precision-recall curve — for every swept
threshold the triple (threshold, recall, precision) (spec section 4.5). -/
def precision_recall_curve {α : Type} [DecidableEq α] (yt : List α)
    (scores : List ℚ) (pos : α) : List (ℚ × ℚ × ℚ) :=
  (thresholdSweep scores).map
    (fun t => (t, tprAt yt scores pos t, precisionAt yt scores pos t))

/-- Ascending order on curve points by their x coordinate. -/
def leFst (p q : ℚ × ℚ) : Prop := p.1 ≤ q.1

instance : DecidableRel leFst := fun p q => inferInstanceAs (Decidable (p.1 ≤ q.1))

instance : IsTotal (ℚ × ℚ) leFst := ⟨fun p q => le_total p.1 q.1⟩

instance : IsTrans (ℚ × ℚ) leFst := ⟨fun _ _ _ h1 h2 => le_trans h1 h2⟩

/-- Re-order curve points by ascending x before integrating
(spec section 4.5). -/
def sortByX (l : List (ℚ × ℚ)) : List (ℚ × ℚ) := List.insertionSort leFst l

/-- Trapezoidal integration of a polyline given as (x, y) points. -/
def trapezoidArea : List (ℚ × ℚ) → ℚ
  | p :: q :: rest => (q.1 - p.1) * (p.2 + q.2) / 2 + trapezoidArea (q :: rest)
  | _ => 0

/-- Modelled from the spec: area under the ROC curve, trapezoidal over
ascending false-positive rate (spec section 4.5). -/
def roc_auc_score {α : Type} [DecidableEq α] (yt : List α) (scores : List ℚ)
    (pos : α) : ℚ :=
  trapezoidArea (sortByX ((roc_curve yt scores pos).map (fun c => (c.2.1, c.2.2))))

/-- Modelled from the spec: area under the precision-recall curve,
trapezoidal over ascending recall (spec section 4.5). -/
def pr_auc_score {α : Type} [DecidableEq α] (yt : List α) (scores : List ℚ)
    (pos : α) : ℚ :=
  trapezoidArea (sortByX
    ((precision_recall_curve yt scores pos).map (fun c => (c.2.1, c.2.2))))

theorem natDiv_unit (a b : ℕ) (h : a ≤ b) :
    0 ≤ (a : ℚ) / (b : ℚ) ∧ (a : ℚ) / (b : ℚ) ≤ 1 := by
  rcases Nat.eq_zero_or_pos b with hb | hb
  · subst hb
    have ha : a = 0 := Nat.le_zero.mp h
    subst ha
    norm_num
  · have hbq : (0 : ℚ) < (b : ℚ) := by exact_mod_cast hb
    constructor
    · exact div_nonneg (by positivity) (le_of_lt hbq)
    · rw [div_le_one hbq]
      exact_mod_cast h

theorem tpAt_le_actual {α : Type} [DecidableEq α] (yt : List α)
    (scores : List ℚ) (pos : α) (thr : ℚ) (hlen : yt.length = scores.length) :
    tpAt yt scores pos thr ≤ actualPosCount yt pos := by
  have h1 : tpAt yt scores pos thr ≤
      (yt.zip scores).countP (fun pr => decide (pr.1 = pos)) := by
    apply List.countP_mono_left
    intro pr _ hpr
    exact (Bool.and_elim_left hpr)
  have h2 := zip_countP_fst yt scores hlen (fun v => decide (v = pos))
  rw [h2] at h1
  exact h1

theorem fpAt_le_neg {α : Type} [DecidableEq α] (yt : List α)
    (scores : List ℚ) (pos : α) (thr : ℚ) (hlen : yt.length = scores.length) :
    fpAt yt scores pos thr ≤ negCount yt pos := by
  have h1 : fpAt yt scores pos thr ≤
      (yt.zip scores).countP (fun pr => !decide (pr.1 = pos)) := by
    apply List.countP_mono_left
    intro pr _ hpr
    exact (Bool.and_elim_left hpr)
  have h2 := zip_countP_fst yt scores hlen (fun v => !decide (v = pos))
  rw [h2] at h1
  exact h1

theorem tpAt_le_pred {α : Type} [DecidableEq α] (yt : List α)
    (scores : List ℚ) (pos : α) (thr : ℚ) :
    tpAt yt scores pos thr ≤ predCountAt yt scores thr := by
  apply List.countP_mono_left
  intro pr _ hpr
  exact (Bool.and_elim_right hpr)

/-- x coordinate of the first curve point (0 for the empty curve). -/
def firstX : List (ℚ × ℚ) → ℚ
  | [] => 0
  | p :: _ => p.1

/-- x coordinate of the last curve point (0 for the empty curve). -/
def lastX : List (ℚ × ℚ) → ℚ
  | [] => 0
  | [p] => p.1
  | _ :: q :: rest => lastX (q :: rest)

theorem trapezoidArea_bounds (l : List (ℚ × ℚ)) (hs : l.Sorted leFst)
    (hb : ∀ p ∈ l, 0 ≤ p.2 ∧ p.2 ≤ 1) :
    0 ≤ trapezoidArea l ∧ trapezoidArea l ≤ lastX l - firstX l := by
  induction l with
  | nil => norm_num [trapezoidArea, lastX, firstX]
  | cons p tail ih =>
      cases tail with
      | nil => norm_num [trapezoidArea, lastX, firstX]
      | cons q rest =>
          rcases List.sorted_cons.mp hs with ⟨hrel, hs2⟩
          have hpq : p.1 ≤ q.1 := hrel q (List.mem_cons_self q rest)
          have hpb := hb p (List.mem_cons_self p (q :: rest))
          have hqb := hb q (List.mem_cons_of_mem p (List.mem_cons_self q rest))
          have ihr := ih hs2 (fun r hr => hb r (List.mem_cons_of_mem p hr))
          have harea : trapezoidArea (p :: q :: rest) =
              (q.1 - p.1) * (p.2 + q.2) / 2 + trapezoidArea (q :: rest) := rfl
          have hlast : lastX (p :: q :: rest) = lastX (q :: rest) := rfl
          have hfq : firstX (q :: rest) = q.1 := rfl
          have hfp : firstX (p :: q :: rest) = p.1 := rfl
          rw [harea, hlast, hfp]
          rw [hfq] at ihr
          have hterm1 : 0 ≤ (q.1 - p.1) * (p.2 + q.2) :=
            mul_nonneg (by linarith) (by linarith)
          have hterm2 : (q.1 - p.1) * (p.2 + q.2) ≤ (q.1 - p.1) * 2 :=
            mul_le_mul_of_nonneg_left (by linarith) (by linarith)
          constructor
          · linarith [ihr.1]
          · linarith [ihr.2]

theorem firstX_unit (l : List (ℚ × ℚ)) (hb : ∀ p ∈ l, 0 ≤ p.1 ∧ p.1 ≤ 1) :
    0 ≤ firstX l ∧ firstX l ≤ 1 := by
  cases l with
  | nil => norm_num [firstX]
  | cons p t => exact hb p (List.mem_cons_self p t)

theorem lastX_unit (l : List (ℚ × ℚ)) (hb : ∀ p ∈ l, 0 ≤ p.1 ∧ p.1 ≤ 1) :
    0 ≤ lastX l ∧ lastX l ≤ 1 := by
  induction l with
  | nil => norm_num [lastX]
  | cons p t ih =>
      cases t with
      | nil => exact hb p (List.mem_cons_self p [])
      | cons q rest => exact ih (fun r hr => hb r (List.mem_cons_of_mem p hr))

theorem trapezoid_unit (l : List (ℚ × ℚ)) (hs : l.Sorted leFst)
    (hb : ∀ p ∈ l, (0 ≤ p.1 ∧ p.1 ≤ 1) ∧ (0 ≤ p.2 ∧ p.2 ≤ 1)) :
    0 ≤ trapezoidArea l ∧ trapezoidArea l ≤ 1 := by
  have h1 := trapezoidArea_bounds l hs (fun p hp => (hb p hp).2)
  have h2 := firstX_unit l (fun p hp => (hb p hp).1)
  have h3 := lastX_unit l (fun p hp => (hb p hp).1)
  exact ⟨h1.1, by linarith [h1.2, h2.1, h3.2]⟩

theorem auc_unit_of_bounds (pts : List (ℚ × ℚ))
    (hb : ∀ p ∈ pts, (0 ≤ p.1 ∧ p.1 ≤ 1) ∧ (0 ≤ p.2 ∧ p.2 ≤ 1)) :
    0 ≤ trapezoidArea (sortByX pts) ∧ trapezoidArea (sortByX pts) ≤ 1 := by
  apply trapezoid_unit
  · exact List.sorted_insertionSort leFst pts
  · intro p hp
    exact hb p (by simpa [sortByX] using hp)

theorem le_foldr_max (l : List ℚ) : ∀ x ∈ l, x ≤ l.foldr max 0 := by
  induction l with
  | nil => intro x hx; simp at hx
  | cons a t ih =>
      intro x hx
      rcases List.mem_cons.mp hx with h | h
      · subst h; exact le_max_left _ _
      · exact le_trans (ih x h) (le_max_right _ _)

theorem lt_topThreshold (scores : List ℚ) : ∀ s ∈ scores, s < topThreshold scores := by
  intro s hsm
  have := le_foldr_max scores s hsm
  rw [topThreshold]
  linarith

theorem tpAt_top_eq_zero {α : Type} [DecidableEq α] (yt : List α)
    (scores : List ℚ) (pos : α) :
    tpAt yt scores pos (topThreshold scores) = 0 := by
  rw [tpAt, List.countP_eq_zero]
  intro pr hpr
  have hmem := (List.of_mem_zip hpr).2
  have hlt := lt_topThreshold scores pr.2 hmem
  simp only [Bool.and_eq_true, decide_eq_true_eq, not_and]
  intro _ hle
  linarith

theorem getLastD_irrel {β : Type} (l : List β) (d1 d2 : β) (h : l ≠ []) :
    l.getLastD d1 = l.getLastD d2 := by
  cases l with
  | nil => exact absurd rfl h
  | cons a t => rw [List.getLastD_cons, List.getLastD_cons]

theorem getLastD_mem {β : Type} : ∀ (l : List β) (d : β), l ≠ [] → l.getLastD d ∈ l := by
  intro l
  induction l with
  | nil => intro d h; exact absurd rfl h
  | cons a t ih =>
      intro d _
      rw [List.getLastD_cons]
      cases t with
      | nil => simp [List.getLastD]
      | cons b r => exact List.mem_cons_of_mem a (ih a (List.cons_ne_nil b r))

theorem sorted_geQ_getLastD_le : ∀ (l : List ℚ), l.Sorted geQ →
    ∀ x ∈ l, l.getLastD 0 ≤ x := by
  intro l
  induction l with
  | nil => intro _ x hx; simp at hx
  | cons a t ih =>
      intro hsort x hx
      rcases List.sorted_cons.mp hsort with ⟨hrel, hs2⟩
      rw [List.getLastD_cons]
      cases t with
      | nil =>
          rcases List.mem_cons.mp hx with h | h
          · subst h; simp [List.getLastD]
          · simp at h
      | cons b r =>
          have hlm : (b :: r).getLastD a ∈ b :: r :=
            getLastD_mem (b :: r) a (List.cons_ne_nil b r)
          have hirrel : (b :: r).getLastD a = (b :: r).getLastD 0 :=
            getLastD_irrel (b :: r) a 0 (List.cons_ne_nil b r)
          rcases List.mem_cons.mp hx with h | h
          · subst h
            exact hrel _ hlm
          · rw [hirrel]
            exact ih hs2 x h

/-- The smallest swept threshold: the last of the descending sweep. -/
def minThreshold (scores : List ℚ) : ℚ := (descThresholds scores).getLastD 0

theorem descThresholds_ne_nil (scores : List ℚ) (hs : scores ≠ []) :
    descThresholds scores ≠ [] := by
  have hd : scores.dedup ≠ [] := by
    cases scores with
    | nil => exact absurd rfl hs
    | cons a t =>
        intro h
        have ha : a ∈ (a :: t).dedup := List.mem_dedup.mpr (List.mem_cons_self a t)
        rw [h] at ha
        simp at ha
  intro h
  have := List.Perm.length_eq (List.perm_insertionSort geQ scores.dedup)
  rw [descThresholds] at h
  rw [h] at this
  simp only [List.length_nil] at this
  exact hd (List.length_eq_zero.mp this.symm)

theorem minThreshold_mem_sweep (scores : List ℚ) (hs : scores ≠ []) :
    minThreshold scores ∈ thresholdSweep scores :=
  List.mem_cons_of_mem _ (getLastD_mem _ 0 (descThresholds_ne_nil scores hs))

theorem minThreshold_le (scores : List ℚ) : ∀ s ∈ scores, minThreshold scores ≤ s := by
  intro s hsm
  have hmem : s ∈ descThresholds scores := by
    rw [descThresholds, List.mem_insertionSort]
    exact List.mem_dedup.mpr hsm
  exact sorted_geQ_getLastD_le _ (List.sorted_insertionSort geQ scores.dedup) s hmem

theorem tpAt_min_eq_actual {α : Type} [DecidableEq α] (yt : List α)
    (scores : List ℚ) (pos : α) (hlen : yt.length = scores.length) :
    tpAt yt scores pos (minThreshold scores) = actualPosCount yt pos := by
  rw [tpAt]
  have hcong : ∀ pr ∈ yt.zip scores,
      ((decide (pr.1 = pos) && decide (minThreshold scores ≤ pr.2)) = true ↔
        decide (pr.1 = pos) = true) := by
    intro pr hpr
    have hmem := (List.of_mem_zip hpr).2
    have hle := minThreshold_le scores pr.2 hmem
    simp [hle]
  rw [List.countP_congr hcong]
  exact zip_countP_fst yt scores hlen (fun v => decide (v = pos))

/-- C6: for every score vector and positive label (with at least one
positive sample), both threshold curves contain the "no positive
predictions" boundary point (recall 0) and the "all predictions
positive" boundary point (recall 1), and both trapezoidal areas under
the curves lie in the interval [0, 1]. -/
theorem curves_boundary_and_auc_unit {α : Type} [DecidableEq α] (yt : List α)
    (scores : List ℚ) (pos : α) (hlen : yt.length = scores.length)
    (hsne : scores ≠ []) (hP : 0 < actualPosCount yt pos) :
    (∃ c ∈ precision_recall_curve yt scores pos, c.2.1 = 0) ∧
    (∃ c ∈ precision_recall_curve yt scores pos, c.2.1 = 1) ∧
    (∃ c ∈ roc_curve yt scores pos, c.2.2 = 0) ∧
    (∃ c ∈ roc_curve yt scores pos, c.2.2 = 1) ∧
    0 ≤ pr_auc_score yt scores pos ∧ pr_auc_score yt scores pos ≤ 1 ∧
    0 ≤ roc_auc_score yt scores pos ∧ roc_auc_score yt scores pos ≤ 1 := by
  have hPne : (actualPosCount yt pos : ℚ) ≠ 0 := Nat.cast_ne_zero.mpr (by omega)
  have htpr0 : tprAt yt scores pos (topThreshold scores) = 0 := by
    rw [tprAt, tpAt_top_eq_zero]
    simp
  have htpr1 : tprAt yt scores pos (minThreshold scores) = 1 := by
    rw [tprAt, tpAt_min_eq_actual yt scores pos hlen]
    exact div_self hPne
  have htop_mem : topThreshold scores ∈ thresholdSweep scores :=
    List.mem_cons_self _ _
  have hmin_mem := minThreshold_mem_sweep scores hsne
  have hbound_roc : ∀ p ∈ (roc_curve yt scores pos).map (fun c => (c.2.1, c.2.2)),
      (0 ≤ p.1 ∧ p.1 ≤ 1) ∧ (0 ≤ p.2 ∧ p.2 ≤ 1) := by
    intro p hp
    rcases List.mem_map.mp hp with ⟨c, hc, hcp⟩
    rcases List.mem_map.mp hc with ⟨t, _, hct⟩
    subst hct
    subst hcp
    exact ⟨natDiv_unit _ _ (fpAt_le_neg yt scores pos t hlen),
      natDiv_unit _ _ (tpAt_le_actual yt scores pos t hlen)⟩
  have hbound_pr : ∀ p ∈ (precision_recall_curve yt scores pos).map
      (fun c => (c.2.1, c.2.2)),
      (0 ≤ p.1 ∧ p.1 ≤ 1) ∧ (0 ≤ p.2 ∧ p.2 ≤ 1) := by
    intro p hp
    rcases List.mem_map.mp hp with ⟨c, hc, hcp⟩
    rcases List.mem_map.mp hc with ⟨t, _, hct⟩
    subst hct
    subst hcp
    exact ⟨natDiv_unit _ _ (tpAt_le_actual yt scores pos t hlen),
      natDiv_unit _ _ (tpAt_le_pred yt scores pos t)⟩
  have haucpr := auc_unit_of_bounds _ hbound_pr
  have haucroc := auc_unit_of_bounds _ hbound_roc
  exact ⟨⟨(topThreshold scores, tprAt yt scores pos (topThreshold scores),
        precisionAt yt scores pos (topThreshold scores)),
      List.mem_map_of_mem _ htop_mem, htpr0⟩,
    ⟨(minThreshold scores, tprAt yt scores pos (minThreshold scores),
        precisionAt yt scores pos (minThreshold scores)),
      List.mem_map_of_mem _ hmin_mem, htpr1⟩,
    ⟨(topThreshold scores, fprAt yt scores pos (topThreshold scores),
        tprAt yt scores pos (topThreshold scores)),
      List.mem_map_of_mem _ htop_mem, htpr0⟩,
    ⟨(minThreshold scores, fprAt yt scores pos (minThreshold scores),
        tprAt yt scores pos (minThreshold scores)),
      List.mem_map_of_mem _ hmin_mem, htpr1⟩,
    haucpr.1, haucpr.2, haucroc.1, haucroc.2⟩

/-- Witness for C6 at the spec scenario: scores `[0.9, 0.8, 0.2, 0.1]`
with `y_true = [1, 1, 0, 0]` — the boundary points and unit-interval
AUC facts hold, and the ROC AUC is exactly 1 (perfect separation). -/
theorem curves_boundary_and_auc_unit_witness :
    roc_auc_score ([1, 1, 0, 0] : List ℕ) [9/10, 8/10, 2/10, 1/10] 1 = 1 ∧
    ((∃ c ∈ precision_recall_curve ([1, 1, 0, 0] : List ℕ)
        [9/10, 8/10, 2/10, 1/10] 1, c.2.1 = 0) ∧
    (∃ c ∈ precision_recall_curve ([1, 1, 0, 0] : List ℕ)
        [9/10, 8/10, 2/10, 1/10] 1, c.2.1 = 1) ∧
    (∃ c ∈ roc_curve ([1, 1, 0, 0] : List ℕ) [9/10, 8/10, 2/10, 1/10] 1,
        c.2.2 = 0) ∧
    (∃ c ∈ roc_curve ([1, 1, 0, 0] : List ℕ) [9/10, 8/10, 2/10, 1/10] 1,
        c.2.2 = 1) ∧
    0 ≤ pr_auc_score ([1, 1, 0, 0] : List ℕ) [9/10, 8/10, 2/10, 1/10] 1 ∧
    pr_auc_score ([1, 1, 0, 0] : List ℕ) [9/10, 8/10, 2/10, 1/10] 1 ≤ 1 ∧
    0 ≤ roc_auc_score ([1, 1, 0, 0] : List ℕ) [9/10, 8/10, 2/10, 1/10] 1 ∧
    roc_auc_score ([1, 1, 0, 0] : List ℕ) [9/10, 8/10, 2/10, 1/10] 1 ≤ 1) := by
  constructor
  · norm_num [roc_auc_score, roc_curve, thresholdSweep, topThreshold,
      descThresholds, List.dedup_cons_of_not_mem, geQ, List.insertionSort,
      List.orderedInsert, sortByX, leFst, trapezoidArea, fprAt, tprAt, fpAt,
      tpAt, actualPosCount, negCount, max_def]
  · exact curves_boundary_and_auc_unit ([1, 1, 0, 0] : List ℕ)
      [9/10, 8/10, 2/10, 1/10] 1 rfl (by simp) (by decide)

/-! ## Bootstrap sampling (C10), embedded from
`python_scripts/ensemble_bagging.py` -/

/-- Modelled from the spec: the external numpy call
`rng.choice(np.arange(n), size=n, replace=True)` — `n` seeded
pseudo-random draws, each a position below `n` (glossary: bootstrap is
resampling with replacement to the same size). -/
def rng_choice (seed n : ℕ) : List ℕ :=
  (List.range n).map (fun i => lcgNext (seed + i) % n)

/-- Embedded from `bootstrap_sample` in `ensemble_bagging.py`: draw one
index vector of length `y.shape[0]` with replacement, then slice both
`x` and `y` by that same vector. -/
def bootstrap_sample (seed : ℕ) (x : List (List ℚ)) (y : List ℚ) :
    List (List ℚ) × List ℚ :=
  ((rng_choice seed y.length).map (fun i => x.getD i []),
   (rng_choice seed y.length).map (fun i => y.getD i 0))

/-- C10: for equal-length inputs with at least one row,
`bootstrap_sample` returns two outputs of exactly `n` rows each, drawn
through one shared index vector whose entries all lie in `0 .. n-1`, so
the feature rows and labels stay aligned. -/
theorem bootstrap_sample_aligned (seed : ℕ) (x : List (List ℚ)) (y : List ℚ)
    (_hlen : x.length = y.length) (hpos : 1 ≤ y.length) :
    (bootstrap_sample seed x y).1.length = y.length ∧
    (bootstrap_sample seed x y).2.length = y.length ∧
    ∃ I : List ℕ, I.length = y.length ∧ (∀ i ∈ I, i < y.length) ∧
      (bootstrap_sample seed x y).1 = I.map (fun i => x.getD i []) ∧
      (bootstrap_sample seed x y).2 = I.map (fun i => y.getD i 0) := by
  refine ⟨by simp [bootstrap_sample, rng_choice],
    by simp [bootstrap_sample, rng_choice],
    rng_choice seed y.length, by simp [rng_choice], ?_, rfl, rfl⟩
  intro i hi
  rw [rng_choice] at hi
  rcases List.mem_map.mp hi with ⟨j, _, hj⟩
  rw [← hj]
  exact Nat.mod_lt _ (by omega)

/-- Witness for C10 at a concrete two-row dataset. -/
theorem bootstrap_sample_aligned_witness :
    (bootstrap_sample 0 [[1], [2]] [1, 2]).1.length = ([1, 2] : List ℚ).length ∧
    (bootstrap_sample 0 [[1], [2]] [1, 2]).2.length = ([1, 2] : List ℚ).length ∧
    ∃ I : List ℕ, I.length = ([1, 2] : List ℚ).length ∧
      (∀ i ∈ I, i < ([1, 2] : List ℚ).length) ∧
      (bootstrap_sample 0 [[1], [2]] [1, 2]).1 =
        I.map (fun i => ([[1], [2]] : List (List ℚ)).getD i []) ∧
      (bootstrap_sample 0 [[1], [2]] [1, 2]).2 =
        I.map (fun i => ([1, 2] : List ℚ).getD i 0) :=
  bootstrap_sample_aligned 0 [[1], [2]] [1, 2] rfl (by decide)
